import Mathlib

/-!
BlendSpace2DNode: edges, edge hashing and boundary extraction.

A shallow embedding of the edge data model of
`dev/Gems/EMotionFX/Code/EMotionFX/Source/BlendSpace2DNode.h`:

* `BlendSpace2DNode.Edge` with `Edge::operator==`,
* `BlendSpace2DNode.EdgeHasher` (`EdgeHasher::operator()`), with its 32-bit
  unsigned arithmetic made explicit,
* `BlendSpace2DNode.Triangle`,
* the boundary extractor `DetermineOuterEdges`, whose body is not part of the
  header and is modelled from the specification.

Vertex indices are `uint16_t` in the source; they are embedded as `Fin 65536`,
and every arithmetic expression over them is carried out on the underlying
natural numbers with the reductions modulo `2 ^ 32` of `AZ::u32` written out.
-/

namespace BlendSpace2DNode

/-- A 16-bit unsigned vertex index (`uint16_t`). -/
abbrev uint16_t := Fin 65536

/-- The struct `Triangle`: `uint16_t m_vertIndices[3]`. -/
structure Triangle where
  m_vertIndices0 : uint16_t
  m_vertIndices1 : uint16_t
  m_vertIndices2 : uint16_t
  deriving DecidableEq, Repr

/-- The struct `Edge`: `uint16_t m_vertIndices[2]`. -/
structure Edge where
  m_vertIndices0 : uint16_t
  m_vertIndices1 : uint16_t
  deriving DecidableEq, Repr

/-- The method `Edge::operator==`: both stored components are compared position by position. -/
def Edge.operator_eq (lhs rhs : Edge) : Bool :=
  (lhs.m_vertIndices0 == rhs.m_vertIndices0) &&
  (lhs.m_vertIndices1 == rhs.m_vertIndices1)

/-- The functor `EdgeHasher::operator()`:
`10000 * (AZ::u32)edge.m_vertIndices[0] + edge.m_vertIndices[1]`.
The literal `10000` and the second index are converted to `AZ::u32`, so both the
product and the sum are reduced modulo `2 ^ 32`; the result is then widened to `size_t`. -/
def EdgeHasher (edge : Edge) : Nat :=
  ((10000 * edge.m_vertIndices0.val) % 2 ^ 32 + edge.m_vertIndices1.val) % 2 ^ 32

/-- Both vertex indices of the edge are below the ceiling of 10000 vertices that the
comment in `EdgeHasher` assumes. -/
def Edge.belowCeiling (edge : Edge) : Prop :=
  edge.m_vertIndices0.val < 10000 ∧ edge.m_vertIndices1.val < 10000

instance (edge : Edge) : Decidable edge.belowCeiling := by
  unfold Edge.belowCeiling; infer_instance

/-- Modelled from the spec: the canonicalization of an edge "by index order"
(`m_vertIndices = (min, max)`), which the header leaves to the callers that
build edges. -/
def canonicalEdge (a b : uint16_t) : Edge :=
  { m_vertIndices0 := min a b, m_vertIndices1 := max a b }

/-- The unordered pairs `{a, b}` and `{c, d}` coincide. -/
def samePair (a b c d : uint16_t) : Prop :=
  (a = c ∧ b = d) ∨ (a = d ∧ b = c)

instance (a b c d : uint16_t) : Decidable (samePair a b c d) := by
  unfold samePair; infer_instance

/-- The triangle has the unordered pair `{a, b}` as one of its three sides. -/
def Triangle.hasSide (tri : Triangle) (a b : uint16_t) : Prop :=
  samePair a b tri.m_vertIndices0 tri.m_vertIndices1 ∨
  samePair a b tri.m_vertIndices1 tri.m_vertIndices2 ∨
  samePair a b tri.m_vertIndices2 tri.m_vertIndices0

instance (tri : Triangle) (a b : uint16_t) : Decidable (tri.hasSide a b) := by
  unfold Triangle.hasSide; infer_instance

/-- The data-model invariant of a triangle: its three indices reference distinct samples. -/
def Triangle.distinctVerts (tri : Triangle) : Prop :=
  tri.m_vertIndices0 ≠ tri.m_vertIndices1 ∧
  tri.m_vertIndices1 ≠ tri.m_vertIndices2 ∧
  tri.m_vertIndices2 ≠ tri.m_vertIndices0

instance (tri : Triangle) : Decidable tri.distinctVerts := by
  unfold Triangle.distinctVerts; infer_instance

/-- Modelled from the spec: the three sides of a triangle, each "canonicalized by index
order", in the order (0,1), (1,2), (2,0). The body of `DetermineOuterEdges` that
enumerates them is not part of the header. -/
def triangleEdges (tri : Triangle) : List Edge :=
  [canonicalEdge tri.m_vertIndices0 tri.m_vertIndices1,
   canonicalEdge tri.m_vertIndices1 tri.m_vertIndices2,
   canonicalEdge tri.m_vertIndices2 tri.m_vertIndices0]

/-- Modelled from the spec: one step of "count triangle-membership per edge via a
hash/lookup keyed on the edge's two vertex indices". The map is a list of
(key, count) entries; the key is looked up with `Edge::operator==`, its count is
incremented when it is present and it is inserted with count 1 otherwise. The body of
`DetermineOuterEdges` that does this is not part of the header. -/
def countEdge (edgeToCount : List (Edge × Nat)) (edge : Edge) : List (Edge × Nat) :=
  match edgeToCount with
  | [] => [(edge, 1)]
  | (key, count) :: rest =>
    if key.operator_eq edge then (key, count + 1) :: rest
    else (key, count) :: countEdge rest edge

/-- Modelled from the spec: the edge-to-count map after all three sides of every
triangle of the triangulation have been counted. The body of `DetermineOuterEdges`
is not part of the header. -/
def countTriangleEdges (m_triangles : List Triangle) : List (Edge × Nat) :=
  m_triangles.foldl (fun edgeToCount tri => (triangleEdges tri).foldl countEdge edgeToCount) []

/-- Modelled from the spec: `DetermineOuterEdges`, declared in the header with its body
elsewhere. "Count triangle-membership per edge (canonicalized by index order) via a
hash/lookup keyed on the edge's two vertex indices; edges with multiplicity 1 are
boundary edges." The result is the content of `m_outerEdges`. -/
def DetermineOuterEdges (m_triangles : List Triangle) : List Edge :=
  ((countTriangleEdges m_triangles).filter (fun entry => entry.2 == 1)).map Prod.fst

/-- The count stored for a key in the edge-to-count map, 0 when the key is absent. -/
def getCount (edgeToCount : List (Edge × Nat)) (edge : Edge) : Nat :=
  match edgeToCount with
  | [] => 0
  | (key, count) :: rest => if key.operator_eq edge then count else getCount rest edge

/-- Well-formedness of the edge-to-count map: counts are positive and no key occurs twice. -/
def MapWF : List (Edge × Nat) → Prop
  | [] => True
  | (key, count) :: rest => 0 < count ∧ getCount rest key = 0 ∧ MapWF rest

/-- All canonicalized sides of all triangles, in counting order. -/
def allEdges : List Triangle → List Edge
  | [] => []
  | tri :: rest => triangleEdges tri ++ allEdges rest

/-! ## Theorems about `Edge::operator==` and `EdgeHasher` -/

theorem Edge.operator_eq_iff (e1 e2 : Edge) :
    e1.operator_eq e2 = true ↔
      e1.m_vertIndices0 = e2.m_vertIndices0 ∧ e1.m_vertIndices1 = e2.m_vertIndices1 := by
  simp [Edge.operator_eq]

theorem EdgeHasher_eq (edge : Edge) :
    EdgeHasher edge = 10000 * edge.m_vertIndices0.val + edge.m_vertIndices1.val := by
  have h0 := edge.m_vertIndices0.isLt
  have h1 := edge.m_vertIndices1.isLt
  unfold EdgeHasher
  omega

/-- C1: for all 16-bit indices a, b, c, d, `Edge::operator==` on the canonical
(min, max) edge of (a, b) and the canonical edge of (c, d) returns true if and only if
the unordered pairs {a, b} and {c, d} are the same. -/
theorem canonicalEdge_operator_eq_iff_samePair (a b c d : uint16_t) :
    (canonicalEdge a b).operator_eq (canonicalEdge c d) = true ↔ samePair a b c d := by
  rw [Edge.operator_eq_iff]
  unfold canonicalEdge samePair
  simp only [Fin.ext_iff, Fin.coe_min, Fin.coe_max]
  omega

/-- C2: for two edges whose four vertex indices are all below 10000, equal
`EdgeHasher` values force the edges to be equal under `Edge::operator==`. -/
theorem EdgeHasher_injective_below_10000 (e1 e2 : Edge)
    (h1 : e1.belowCeiling) (h2 : e2.belowCeiling)
    (hh : EdgeHasher e1 = EdgeHasher e2) :
    e1.operator_eq e2 = true := by
  obtain ⟨-, h11⟩ := h1
  obtain ⟨-, h21⟩ := h2
  rw [EdgeHasher_eq, EdgeHasher_eq] at hh
  rw [Edge.operator_eq_iff]
  simp only [Fin.ext_iff]
  omega

theorem EdgeHasher_injective_below_10000_witness :
    Edge.belowCeiling ⟨7, 9999⟩ ∧ EdgeHasher ⟨7, 9999⟩ = 79999 ∧
      Edge.operator_eq ⟨7, 9999⟩ ⟨7, 9999⟩ = true :=
  ⟨by decide, by decide,
    EdgeHasher_injective_below_10000 ⟨7, 9999⟩ ⟨7, 9999⟩ (by decide) (by decide) rfl⟩

/-- C3: for all edges with arbitrary 16-bit indices, equality under
`Edge::operator==` implies equal `EdgeHasher` values. -/
theorem EdgeHasher_respects_operator_eq (e1 e2 : Edge)
    (h : e1.operator_eq e2 = true) : EdgeHasher e1 = EdgeHasher e2 := by
  rw [Edge.operator_eq_iff] at h
  unfold EdgeHasher
  rw [h.1, h.2]

theorem EdgeHasher_respects_operator_eq_witness :
    Edge.operator_eq ⟨20000, 65535⟩ ⟨20000, 65535⟩ = true ∧
      EdgeHasher ⟨20000, 65535⟩ = EdgeHasher ⟨20000, 65535⟩ :=
  ⟨by decide, EdgeHasher_respects_operator_eq ⟨20000, 65535⟩ ⟨20000, 65535⟩ (by decide)⟩

/-- C8: there are two edges, one of them with a vertex index of 10000 or more, that
are not equal under `Edge::operator==` and still have the same `EdgeHasher` value;
the edges (0, 10000) and (1, 0) are such a pair. -/
theorem EdgeHasher_collision_at_10000 :
    ∃ e1 e2 : Edge,
      e1 = ⟨0, 10000⟩ ∧ e2 = ⟨1, 0⟩ ∧
      (10000 ≤ e1.m_vertIndices0.val ∨ 10000 ≤ e1.m_vertIndices1.val ∨
        10000 ≤ e2.m_vertIndices0.val ∨ 10000 ≤ e2.m_vertIndices1.val) ∧
      e1.operator_eq e2 = false ∧ EdgeHasher e1 = EdgeHasher e2 :=
  ⟨⟨0, 10000⟩, ⟨1, 0⟩, rfl, rfl, by decide, by decide, by decide⟩

/-- C9: `Edge::operator==` alone is direction-sensitive: for 16-bit indices a ≠ b the
edge (a, b) is not equal to the edge (b, a), and two edges are equal exactly when both
stored components agree position by position. -/
theorem Edge.operator_eq_direction_sensitive (a b : uint16_t) (hab : a ≠ b) (e1 e2 : Edge) :
    Edge.operator_eq ⟨a, b⟩ ⟨b, a⟩ = false ∧
      (e1.operator_eq e2 = true ↔
        e1.m_vertIndices0 = e2.m_vertIndices0 ∧ e1.m_vertIndices1 = e2.m_vertIndices1) := by
  refine ⟨?_, Edge.operator_eq_iff e1 e2⟩
  rw [← Bool.not_eq_true, Edge.operator_eq_iff]
  rintro ⟨h, -⟩
  exact hab h

theorem Edge.operator_eq_direction_sensitive_witness :
    (3 : uint16_t) ≠ 5 ∧ Edge.operator_eq ⟨3, 5⟩ ⟨5, 3⟩ = false ∧
      (Edge.operator_eq ⟨3, 5⟩ ⟨3, 5⟩ = true ↔
        (3 : uint16_t) = 3 ∧ (5 : uint16_t) = 5) :=
  ⟨by decide, Edge.operator_eq_direction_sensitive 3 5 (by decide) ⟨3, 5⟩ ⟨3, 5⟩⟩

/-- C10: for every edge with 16-bit vertex indices v0, v1 the 32-bit unsigned
expression of `EdgeHasher` does not wrap: the product 10000 * v0 stays below 2^32 and the
result equals the mathematical value 10000 * v0 + v1, which is at most 655415535 < 2^32. -/
theorem EdgeHasher_no_wrap (edge : Edge) :
    10000 * edge.m_vertIndices0.val < 2 ^ 32 ∧
      EdgeHasher edge = 10000 * edge.m_vertIndices0.val + edge.m_vertIndices1.val ∧
      10000 * edge.m_vertIndices0.val + edge.m_vertIndices1.val ≤ 655415535 ∧
      655415535 < 2 ^ 32 := by
  have h0 := edge.m_vertIndices0.isLt
  have h1 := edge.m_vertIndices1.isLt
  refine ⟨by omega, EdgeHasher_eq edge, by omega, by norm_num⟩


/-! ## The boundary extractor -/

theorem canonicalEdge_eq_iff (a b c d : uint16_t) :
    canonicalEdge a b = canonicalEdge c d ↔ samePair a b c d := by
  unfold canonicalEdge samePair
  simp only [Edge.mk.injEq, Fin.ext_iff, Fin.coe_min, Fin.coe_max]
  omega

theorem Edge.operator_eq_iff_eq (e1 e2 : Edge) : e1.operator_eq e2 = true ↔ e1 = e2 := by
  rw [Edge.operator_eq_iff]
  cases e1; cases e2; simp

theorem getCount_countEdge (m : List (Edge × Nat)) (e' e : Edge) :
    getCount (countEdge m e') e = getCount m e + (if e' = e then 1 else 0) := by
  induction m with
  | nil =>
    simp [countEdge, getCount, Edge.operator_eq_iff_eq]
  | cons kc rest ih =>
    obtain ⟨k, c⟩ := kc
    by_cases hk : k = e'
    · subst hk
      by_cases he : k = e
      · subst he
        simp [countEdge, getCount, Edge.operator_eq_iff_eq]
      · simp [countEdge, getCount, Edge.operator_eq_iff_eq, he]
    · by_cases he : k = e
      · subst he
        have hk2 : ¬ e' = k := fun h => hk h.symm
        simp [countEdge, getCount, Edge.operator_eq_iff_eq, hk, hk2]
      · simp [countEdge, getCount, Edge.operator_eq_iff_eq, hk, he, ih]

theorem MapWF_countEdge (m : List (Edge × Nat)) (e : Edge) (h : MapWF m) :
    MapWF (countEdge m e) := by
  induction m with
  | nil => simp [countEdge, MapWF, getCount]
  | cons kc rest ih =>
    obtain ⟨k, c⟩ := kc
    obtain ⟨hc, hk, hrest⟩ := h
    by_cases hke : k = e
    · subst hke
      simp only [countEdge, (Edge.operator_eq_iff_eq k k).2 rfl, if_true]
      exact ⟨Nat.succ_pos c, hk, hrest⟩
    · have hne : ¬ k.operator_eq e = true := fun h => hke ((Edge.operator_eq_iff_eq k e).1 h)
      simp only [countEdge, hne, if_false]
      refine ⟨hc, ?_, ih hrest⟩
      rw [getCount_countEdge, hk]
      have : ¬ e = k := fun h => hke h.symm
      simp [this]

theorem getCount_foldl (es : List Edge) (m : List (Edge × Nat)) (e : Edge) :
    getCount (es.foldl countEdge m) e = getCount m e + es.count e := by
  induction es generalizing m with
  | nil => simp
  | cons x xs ih =>
    rw [List.foldl_cons, ih, getCount_countEdge, List.count_cons]
    simp only [beq_iff_eq]
    omega

theorem MapWF_foldl (es : List Edge) (m : List (Edge × Nat)) (h : MapWF m) :
    MapWF (es.foldl countEdge m) := by
  induction es generalizing m with
  | nil => exact h
  | cons x xs ih => exact ih _ (MapWF_countEdge m x h)

theorem countTriangleEdges_eq (tris : List Triangle) :
    countTriangleEdges tris = (allEdges tris).foldl countEdge [] := by
  unfold countTriangleEdges
  generalize ([] : List (Edge × Nat)) = m
  induction tris generalizing m with
  | nil => rfl
  | cons t ts ih =>
    rw [List.foldl_cons, ih]
    simp only [allEdges, List.foldl_append]

theorem mem_iff_getCount (m : List (Edge × Nat)) (h : MapWF m) (e : Edge) (c : Nat) :
    (e, c) ∈ m ↔ getCount m e = c ∧ 0 < c := by
  induction m with
  | nil =>
    simp only [List.not_mem_nil, getCount, false_iff]
    omega
  | cons kc rest ih =>
    obtain ⟨k, c0⟩ := kc
    obtain ⟨hc, hk, hrest⟩ := h
    rw [List.mem_cons, ih hrest]
    by_cases hke : k = e
    · subst hke
      simp only [getCount, (Edge.operator_eq_iff_eq k k).2 rfl, if_true, Prod.mk.injEq,
        true_and]
      omega
    · have hne : ¬ k.operator_eq e = true := fun h => hke ((Edge.operator_eq_iff_eq k e).1 h)
      have hek : ¬ e = k := fun h => hke h.symm
      simp [getCount, hne, hek]

/-- An edge is reported as outer exactly when it occurs once among the canonicalized
sides of all triangles, counted with multiplicity. -/
theorem mem_DetermineOuterEdges_iff_count (tris : List Triangle) (e : Edge) :
    e ∈ DetermineOuterEdges tris ↔ (allEdges tris).count e = 1 := by
  have hwf : MapWF (countTriangleEdges tris) := by
    rw [countTriangleEdges_eq]
    exact MapWF_foldl _ _ trivial
  have hcount : getCount (countTriangleEdges tris) e = (allEdges tris).count e := by
    rw [countTriangleEdges_eq, getCount_foldl]
    simp [getCount]
  unfold DetermineOuterEdges
  rw [List.mem_map]
  constructor
  · rintro ⟨⟨k, c⟩, hmem, hke⟩
    simp only at hke
    subst hke
    rw [List.mem_filter] at hmem
    obtain ⟨hmem, hc⟩ := hmem
    have hc1 : c = 1 := by simpa using hc
    have := (mem_iff_getCount _ hwf k c).1 hmem
    omega
  · intro h1
    refine ⟨(e, 1), List.mem_filter.2 ⟨?_, by simp⟩, rfl⟩
    exact (mem_iff_getCount _ hwf e 1).2 ⟨by omega, Nat.one_pos⟩

theorem canonicalEdge_eq_iff_symm (a b c d : uint16_t) :
    canonicalEdge c d = canonicalEdge a b ↔ samePair a b c d := by
  rw [eq_comm, canonicalEdge_eq_iff]

theorem samePair_chain (a b x y z : uint16_t) (h1 : samePair a b x y) (h2 : samePair a b y z) :
    x = z := by
  unfold samePair at h1 h2
  simp only [Fin.ext_iff] at h1 h2 ⊢
  omega

theorem count_triangleEdges (tri : Triangle) (h : tri.distinctVerts) (a b : uint16_t) :
    (triangleEdges tri).count (canonicalEdge a b) = if tri.hasSide a b then 1 else 0 := by
  obtain ⟨v0, v1, v2⟩ := tri
  obtain ⟨h01, h12, h20⟩ := h
  simp only at h01 h12 h20
  simp only [triangleEdges, List.count_cons, List.count_nil, beq_iff_eq,
    canonicalEdge_eq_iff_symm, Triangle.hasSide]
  by_cases hA : samePair a b v0 v1 <;> by_cases hB : samePair a b v1 v2 <;>
    by_cases hC : samePair a b v2 v0 <;>
    simp only [hA, hB, hC, if_true, if_false, or_true, true_or, or_self] <;>
    first
    | rfl
    | exact absurd (samePair_chain a b v0 v1 v2 hA hB) h20.symm
    | exact absurd (samePair_chain a b v1 v2 v0 hB hC) h01.symm
    | exact absurd (samePair_chain a b v2 v0 v1 hC hA) h12.symm

theorem count_allEdges (tris : List Triangle) (h : ∀ tri ∈ tris, tri.distinctVerts)
    (a b : uint16_t) :
    (allEdges tris).count (canonicalEdge a b) =
      tris.countP (fun tri => decide (tri.hasSide a b)) := by
  induction tris with
  | nil => rfl
  | cons t ts ih =>
    have ht := h t (List.mem_cons_self t ts)
    have hts : ∀ tri ∈ ts, tri.distinctVerts := fun tri htri => h tri (List.mem_cons_of_mem t htri)
    rw [allEdges, List.count_append, ih hts, count_triangleEdges t ht, List.countP_cons]
    by_cases hs : t.hasSide a b <;> simp [hs, Nat.add_comm]

theorem mem_allEdges (tris : List Triangle) (e : Edge) (h : e ∈ allEdges tris) :
    ∃ tri ∈ tris, e ∈ triangleEdges tri := by
  induction tris with
  | nil => simp [allEdges] at h
  | cons t ts ih =>
    rw [allEdges, List.mem_append] at h
    rcases h with h | h
    · exact ⟨t, List.mem_cons_self t ts, h⟩
    · obtain ⟨tri, htri, he⟩ := ih h
      exact ⟨tri, List.mem_cons_of_mem t htri, he⟩

/-- The distinct-index invariant of a triangle is needed: the single triangle (0, 0, 2)
has the side {0, 2} once, yet that side is counted twice and is not reported. -/
theorem DetermineOuterEdges_repeated_index :
    canonicalEdge 0 2 ∉ DetermineOuterEdges [⟨0, 0, 2⟩] ∧
      List.countP (fun (tri : Triangle) => decide (tri.hasSide 0 2)) [⟨0, 0, 2⟩] = 1 := by
  decide

/-- C4: for every triangulation (triangles over distinct sample indices), the outer
edges computed by `DetermineOuterEdges` are exactly the edges that belong to exactly one
triangle: every reported edge is stored canonicalized by index order, and the canonical
edge of any pair (a, b) is reported if and only if {a, b} is a side of exactly one
triangle of `m_triangles`. -/
theorem DetermineOuterEdges_exactly_one_triangle (m_triangles : List Triangle)
    (h : ∀ tri ∈ m_triangles, tri.distinctVerts) :
    (∀ e ∈ DetermineOuterEdges m_triangles,
      e.m_vertIndices0 < e.m_vertIndices1 ∧
        e = canonicalEdge e.m_vertIndices0 e.m_vertIndices1) ∧
    ∀ a b : uint16_t,
      canonicalEdge a b ∈ DetermineOuterEdges m_triangles ↔
        m_triangles.countP (fun tri => decide (tri.hasSide a b)) = 1 := by
  constructor
  · intro e he
    rw [mem_DetermineOuterEdges_iff_count] at he
    have hmem : e ∈ allEdges m_triangles := List.count_pos_iff.1 (by omega)
    obtain ⟨tri, htri, hside⟩ := mem_allEdges _ _ hmem
    obtain ⟨h01, h12, h20⟩ := h tri htri
    obtain ⟨v0, v1, v2⟩ := tri
    simp only at h01 h12 h20
    simp only [triangleEdges, List.mem_cons, List.mem_singleton, List.not_mem_nil,
      or_false] at hside
    have h01 : v0.val ≠ v1.val := Fin.val_ne_of_ne h01
    have h12 : v1.val ≠ v2.val := Fin.val_ne_of_ne h12
    have h20 : v2.val ≠ v0.val := Fin.val_ne_of_ne h20
    rcases hside with rfl | rfl | rfl <;>
      simp only [canonicalEdge, Edge.mk.injEq, Fin.ext_iff, Fin.lt_def, Fin.coe_min,
        Fin.coe_max] <;> omega
  · intro a b
    rw [mem_DetermineOuterEdges_iff_count, count_allEdges _ h]

theorem DetermineOuterEdges_exactly_one_triangle_witness :
    (∀ tri ∈ [(⟨0, 1, 2⟩ : Triangle), ⟨1, 3, 2⟩], tri.distinctVerts) ∧
    DetermineOuterEdges [⟨0, 1, 2⟩, ⟨1, 3, 2⟩] = [⟨0, 1⟩, ⟨0, 2⟩, ⟨1, 3⟩, ⟨2, 3⟩] ∧
    (canonicalEdge 1 0 ∈ DetermineOuterEdges [⟨0, 1, 2⟩, ⟨1, 3, 2⟩] ↔
      List.countP (fun (tri : Triangle) => decide (tri.hasSide 1 0))
        [⟨0, 1, 2⟩, ⟨1, 3, 2⟩] = 1) :=
  ⟨by decide, by decide,
    (DetermineOuterEdges_exactly_one_triangle [⟨0, 1, 2⟩, ⟨1, 3, 2⟩] (by decide)).2 1 0⟩

end BlendSpace2DNode
